import Mathlib

/-!
Verification of the Clarity-engine upload/poll test scripts.

Byte-level shallow embedding of the two Python scripts
`test-upload-simple.py` and `test-upload.py`:

* the multipart/form-data encoder `encode_multipart_formdata`
  (bytes are modelled as natural numbers, strings by their UTF-8 /
  ASCII byte sequences);
* the batch polling loops of both scripts, with the mocked HTTP
  responses passed in as explicit sequences;
* the upload response identifier extraction of both scripts;
* the status-code handling of the `requests`-based script.

On the specification side, a conforming multipart/form-data reader is
defined (delimiter splitting on `CRLF -- boundary`, header block split
at the first empty line, `name="..."` / `filename="..."` extraction)
and the encoder output is proved to round-trip through it.
-/

/-! ## Bytes and ASCII strings -/

/-- Bytes are modelled as natural numbers (values 0..255 in practice). -/
abbrev Byte := Nat

/-- Byte sequence of an ASCII string (for ASCII text this is exactly the
UTF-8 encoding that Python's `str.encode()` produces). -/
def ascii (s : String) : List Byte := s.data.map Char.toNat

/-- Carriage-return byte. -/
def CRb : Byte := 13

/-- Line-feed byte. -/
def LFb : Byte := 10

/-- Double-quote byte. -/
def QUOTb : Byte := 34

/-- The CRLF line terminator written by the encoder. -/
def crlf : List Byte := [CRb, LFb]

/-- The two-dash marker used in boundary lines (`--`). -/
def dd : List Byte := [45, 45]

/-! ## The multipart encoder (from `test-upload-simple.py`, lines 10-30)

The Python function draws `boundary` as
`'----WebKitFormBoundary' + os.urandom(16).hex()`; the embedding takes the
boundary as an explicit parameter and `validBoundary` characterises the
values the script can generate. `fields` is the dict of scalar fields
(iterated in insertion order, modelled as a list of name/value pairs) and
`files` the dict of file parts. -/

/-- One entry of the `files` dict: `name: (filename, file_data)`. -/
structure FilePart where
  fname : List Byte
  filename : List Byte
  fdata : List Byte
deriving DecidableEq

/-- Bytes written for one scalar field part:
`body.write(f'--{boundary}\r\n')`,
`body.write(f'Content-Disposition: form-data; name="{name}"\r\n\r\n')`,
`body.write(f'{value}\r\n')`. -/
def fieldChunk (B n v : List Byte) : List Byte :=
  dd ++ B ++ crlf
    ++ ascii "Content-Disposition: form-data; name=\"" ++ n ++ ascii "\""
    ++ crlf ++ crlf
    ++ v ++ crlf

/-- Bytes written for the file part:
`body.write(f'--{boundary}\r\n')`,
`body.write(f'Content-Disposition: form-data; name="{name}"; filename="{filename}"\r\n')`,
`body.write(f'Content-Type: text/csv\r\n\r\n')`,
`body.write(file_data)`, `body.write(b'\r\n')`. -/
def fileChunk (B : List Byte) (f : FilePart) : List Byte :=
  dd ++ B ++ crlf
    ++ ascii "Content-Disposition: form-data; name=\"" ++ f.fname
    ++ ascii "\"; filename=\"" ++ f.filename ++ ascii "\"" ++ crlf
    ++ ascii "Content-Type: text/csv" ++ crlf ++ crlf
    ++ f.fdata ++ crlf

/-- The closing line `body.write(f'--{boundary}--\r\n')`. -/
def closingChunk (B : List Byte) : List Byte := dd ++ B ++ dd ++ crlf

/-- `encode_multipart_formdata(fields, files)`: returns
`(body.getvalue(), f'multipart/form-data; boundary={boundary}')`. -/
def encode_multipart_formdata (B : List Byte)
    (fields : List (List Byte × List Byte)) (files : List FilePart) :
    List Byte × List Byte :=
  ((fields.map (fun nv => fieldChunk B nv.1 nv.2)).flatten
     ++ (files.map (fileChunk B)).flatten
     ++ closingChunk B,
   ascii "multipart/form-data; boundary=" ++ B)

/-- The sixteen lowercase hex digit bytes produced by `bytes.hex()`. -/
def hexDigits : List Byte := ascii "0123456789abcdef"

/-- Boundaries the script can generate:
`'----WebKitFormBoundary' + os.urandom(16).hex()` (32 hex characters). -/
def validBoundary (B : List Byte) : Prop :=
  ∃ h, B = ascii "----WebKitFormBoundary" ++ h ∧
    h.length = 32 ∧ ∀ b ∈ h, b ∈ hexDigits

/-! ## A conforming multipart/form-data reader (specification side)

Modelled from the spec: "a conforming multipart parser fed the encoder's
output". The repository contains no decoder, so the reader follows RFC
2046 framing: the body starts with `--boundary CRLF`, parts are separated
by the delimiter `CRLF -- boundary` followed by `CRLF` (or by `--` for the
closing delimiter), each part's header block ends at the first empty line,
and the `Content-Disposition` parameters are the quoted `name` and
optional `filename`. -/

/-- Split a byte stream at the first occurrence of `sep`: returns the
bytes strictly before the occurrence and the bytes strictly after it. -/
def takeUntilSep (sep : List Byte) : List Byte → Option (List Byte × List Byte)
  | [] => none
  | x :: xs =>
    if sep.isPrefixOf (x :: xs) then some ([], (x :: xs).drop sep.length)
    else
      match takeUntilSep sep xs with
      | some (pre, rest) => some (x :: pre, rest)
      | none => none

/-- Require `p` at the front of `l` and drop it. -/
def dropPre (p l : List Byte) : Option (List Byte) :=
  if p.isPrefixOf l then some (l.drop p.length) else none

/-- A decoded part: the `name` parameter, the optional `filename`
parameter, and the raw content bytes. -/
structure ParsedPart where
  pname : List Byte
  pfilename : Option (List Byte)
  pcontent : List Byte
deriving DecidableEq

/-- Read the quoted `name` and optional `filename` parameters out of a
`Content-Disposition: form-data` header block. -/
def parseHeaderBlock (h : List Byte) : Option (List Byte × Option (List Byte)) :=
  match dropPre (ascii "Content-Disposition: form-data; name=\"") h with
  | none => none
  | some r1 =>
    match takeUntilSep [QUOTb] r1 with
    | none => none
    | some (n, r2) =>
      if r2 = [] then some (n, none)
      else
        match dropPre (ascii "; filename=\"") r2 with
        | none => none
        | some r3 =>
          match takeUntilSep [QUOTb] r3 with
          | none => none
          | some (fn, _) => some (n, some fn)

/-- Decode one part: header block up to the first empty line, then the
`Content-Disposition` parameters; the remainder is the content. -/
def parsePartBytes (p : List Byte) : Option ParsedPart :=
  match takeUntilSep (crlf ++ crlf) p with
  | none => none
  | some (h, content) =>
    match parseHeaderBlock h with
    | none => none
    | some (n, fn) => some ⟨n, fn, content⟩

/-- Cut the stream (everything after the opening boundary line) into raw
parts at each delimiter `CRLF -- boundary`; a delimiter followed by `--`
is the closing delimiter. `fuel` bounds the recursion depth. -/
def splitParts (delim : List Byte) : Nat → List Byte → Option (List (List Byte))
  | 0, _ => none
  | fuel + 1, s =>
    match takeUntilSep delim s with
    | none => none
    | some (p, rest) =>
      if dd.isPrefixOf rest then some [p]
      else
        match dropPre crlf rest with
        | none => none
        | some rest' =>
          match splitParts delim fuel rest' with
          | some ps => some (p :: ps)
          | none => none

/-- Read the boundary token out of the `Content-Type` header value. -/
def boundaryOfContentType (ct : List Byte) : Option (List Byte) :=
  dropPre (ascii "multipart/form-data; boundary=") ct

/-- Decode every raw part, failing if any of them fails to decode. -/
def decodeParts : List (List Byte) → Option (List ParsedPart)
  | [] => some []
  | p :: ps =>
    match parsePartBytes p, decodeParts ps with
    | some a, some rest => some (a :: rest)
    | _, _ => none

/-- The conforming reader: boundary from the content type, opening
boundary line, delimiter splitting, then per-part decoding. -/
def parseMultipart (ct body : List Byte) : Option (List ParsedPart) :=
  match boundaryOfContentType ct with
  | none => none
  | some B =>
    match dropPre (dd ++ B ++ crlf) body with
    | none => none
    | some s =>
      match splitParts (crlf ++ dd ++ B) (s.length + 1) s with
      | none => none
      | some ps => decodeParts ps

/-! ## Decompositions of the encoder output

Views of the encoder output used to state and prove its structure: each
emitted chunk is a boundary line, a header block, an empty line, the
content and a final CRLF; the whole body is the chunks in order followed
by the closing line. -/

/-- The fixed header prelude `Content-Disposition: form-data; name="`. -/
def cdName : List Byte := ascii "Content-Disposition: form-data; name=\""

/-- The fixed second header line `Content-Type: text/csv` written for
the file part. -/
def ctLine : List Byte := ascii "Content-Type: text/csv"

/-- Header block of a scalar field part (everything between the boundary
line and the empty line). -/
def fieldHeaderBytes (n : List Byte) : List Byte := cdName ++ n ++ [QUOTb]

/-- Header block of the file part: the `Content-Disposition` line, a
CRLF, and the `Content-Type` line. -/
def fileHeaderBytes (f : FilePart) : List Byte :=
  cdName ++ f.fname ++ ascii "\"; filename=\"" ++ f.filename ++ [QUOTb]
    ++ crlf ++ ctLine

/-- Raw part bytes (header block, empty line, content) of a field part,
as they sit between two delimiters in the stream. -/
def fieldPartBytes (nv : List Byte × List Byte) : List Byte :=
  fieldHeaderBytes nv.1 ++ crlf ++ crlf ++ nv.2

/-- Raw part bytes of the file part. -/
def filePartBytes (f : FilePart) : List Byte :=
  fileHeaderBytes f ++ crlf ++ crlf ++ f.fdata

/-- One emitted chunk, as a function of the boundary token and the
(header block, content) pair: boundary line, header block, empty line,
content, CRLF. -/
def chunkBytes (B : List Byte) (hc : List Byte × List Byte) : List Byte :=
  dd ++ B ++ crlf ++ hc.1 ++ crlf ++ crlf ++ hc.2 ++ crlf

/-- The (header block, content) pairs of all parts the encoder emits,
in order: one per scalar field, then one per file. -/
def partChunks (fields : List (List Byte × List Byte)) (files : List FilePart) :
    List (List Byte × List Byte) :=
  fields.map (fun nv => (fieldHeaderBytes nv.1, nv.2))
    ++ files.map (fun f => (fileHeaderBytes f, f.fdata))

/-- The stream following the opening boundary line, for field parts `ps`
followed by the file part `fp`: each part is followed by the delimiter,
then CRLF for an inner delimiter or `--` CRLF for the closing one. -/
def restStream (delim fp : List Byte) : List (List Byte) → List Byte
  | [] => fp ++ delim ++ dd ++ crlf
  | p :: ps => p ++ delim ++ crlf ++ restStream delim fp ps

/-! ## Batch records and the status endpoint

A batch object returned by `GET /api/upload/batches` is a JSON object;
fields the scripts touch are modelled as optional fields (absent key =
`none`). `processedRecords` / `totalRecords` are numbers, the rest are
strings. -/

/-- A batch object as the server may return it. -/
structure Batch where
  id : Option String
  status : Option String
  currentStep : Option String
  processedRecords : Option Nat
  totalRecords : Option Nat
  finexioMatchingStatus : Option String
  googleAddressStatus : Option String
  mastercardEnrichmentStatus : Option String
  akkioPredictionStatus : Option String
deriving DecidableEq

/-- `next((b for b in batches if b['id'] == batch_id), None)`: the lazy
generator evaluates `b['id']` entry by entry, so an entry with no `id`
key raises `KeyError` before later entries are examined. -/
def findBatch : List Batch → String → Except String (Option Batch)
  | [], _ => .ok none
  | b :: rest, bid =>
    match b.id with
    | none => .error "KeyError: 'id'"
    | some x => if x = bid then .ok (some b) else findBatch rest bid

/-- The status snapshot printed for a located batch (identical print
statements in both scripts); `s` is the value of `batch['status']`.
Fields other than `status` are read with `dict.get` defaults:
`'N/A'` for `currentStep`, `0` for the record counts and `'pending'`
for the four enrichment statuses. -/
def snapshotLines (i : Nat) (b : Batch) (s : String) : List String :=
  ["⏱️  Time: " ++ toString (i * 10) ++ "s",
   "📊 Status: " ++ s,
   "📝 Current Step: " ++ b.currentStep.getD "N/A",
   "📊 Classification: " ++ toString (b.processedRecords.getD 0) ++ "/"
     ++ toString (b.totalRecords.getD 0),
   "🔍 Finexio: " ++ b.finexioMatchingStatus.getD "pending",
   "📍 Google Address: " ++ b.googleAddressStatus.getD "pending",
   "💳 Mastercard: " ++ b.mastercardEnrichmentStatus.getD "pending",
   "🤖 Akkio: " ++ b.akkioPredictionStatus.getD "pending"]

/-- What one loop iteration does after its prints: continue to the next
attempt, break out of the loop, or propagate a raised exception. -/
inductive StepCtl where
  | cont
  | breakLoop
  | raised (msg : String)
deriving DecidableEq

/-- One polling attempt of `test-upload-simple.py` (lines 71-91), given
the batch list the mocked status endpoint returns for this attempt:
locate the batch, print the snapshot, break on `status == 'completed'`,
warn when the batch is not in the list. Returns the printed lines and
the resulting control action. -/
def attemptStep (batches : List Batch) (bid : String) (i : Nat) :
    List String × StepCtl :=
  match findBatch batches bid with
  | .error m => ([], .raised m)
  | .ok none => (["⚠️ Batch " ++ bid ++ " not found in list"], .cont)
  | .ok (some b) =>
    match b.status with
    | none => (["⏱️  Time: " ++ toString (i * 10) ++ "s"], .raised "KeyError: 'status'")
    | some s =>
      if s = "completed" then
        (snapshotLines i b s
           ++ ["✅ Batch processing completed successfully!",
               "✅ All enrichment phases completed"], .breakLoop)
      else (snapshotLines i b s, .cont)

/-- One polling attempt of `test-upload.py` (lines 30-49), given the
mocked `(status_code, json body)` of this attempt's
`GET /api/upload/batches`. The whole attempt body is guarded by
`if status_response.status_code == 200:`; its `else` prints the failure
line, and a batch missing from the list produces no output at all. -/
def attemptStepR (resp : Nat × List Batch) (bid : String) (i : Nat) :
    List String × StepCtl :=
  if resp.1 = 200 then
    match findBatch resp.2 bid with
    | .error m => ([], .raised m)
    | .ok none => ([], .cont)
    | .ok (some b) =>
      match b.status with
      | none => (["⏱️  Time: " ++ toString (i * 10) ++ "s"], .raised "KeyError: 'status'")
      | some s =>
        if s = "completed" then
          (snapshotLines i b s ++ ["✅ Batch processing completed!"], .breakLoop)
        else (snapshotLines i b s, .cont)
  else (["❌ Failed to get batch status: " ++ toString resp.1], .cont)

/-- Outcome of a whole polling run: early `break` at a given 0-based
attempt index, normal exhaustion of the `range(30)` budget, or an
exception escaping the loop. -/
inductive LoopOutcome where
  | completed (attempt : Nat)
  | exhausted
  | raised (msg : String)
deriving DecidableEq

/-- Observable trace of a polling run: how many `time.sleep(10)` calls
were executed (one at the top of every iteration entered) and how the
loop ended. -/
structure RunTrace where
  sleeps : Nat
  outcome : LoopOutcome
deriving DecidableEq

/-- The shared `for i in range(n): time.sleep(10); <attempt body>` shape
of both scripts' polling loops, parameterised by the attempt body. -/
def runLoop (step : Nat → List String × StepCtl) : Nat → Nat → RunTrace
  | _, 0 => ⟨0, .exhausted⟩
  | i, r + 1 =>
    match (step i).2 with
    | .breakLoop => ⟨1, .completed i⟩
    | .raised m => ⟨1, .raised m⟩
    | .cont =>
      let rest := runLoop step (i + 1) r
      ⟨rest.sleeps + 1, rest.outcome⟩

/-- `range(30)`: the attempt budget of both polling loops. -/
def pollAttempts : Nat := 30

/-- The polling loop of `test-upload-simple.py` (lines 68-91), with the
mocked per-attempt batch lists supplied as a sequence. -/
def pollLoopSimple (responses : Nat → List Batch) (bid : String) : RunTrace :=
  runLoop (fun i => attemptStep (responses i) bid i) 0 pollAttempts

/-- The polling loop of `test-upload.py` (lines 27-49), with the mocked
per-attempt `(status_code, batches)` responses supplied as a sequence. -/
def pollLoopRequests (responses : Nat → Nat × List Batch) (bid : String) : RunTrace :=
  runLoop (fun i => attemptStepR (responses i) bid i) 0 pollAttempts

/-- Process exit code of `test-upload-simple.py` after the polling run:
the whole flow sits in `try: ... except Exception as e: print(...)`, so
the process always exits normally (code 0), whatever the outcome. -/
def exitCodeSimple (_t : RunTrace) : Nat := 0

/-- Process exit code of `test-upload.py` after the polling run: there is
no exception handler, so a raised exception kills the interpreter with
exit code 1; otherwise the script falls off the end with code 0. -/
def exitCodeRequests (t : RunTrace) : Nat :=
  match t.outcome with
  | .raised _ => 1
  | _ => 0

/-! ## Upload response identifier extraction -/

/-- Python `dict.get(key)` on a string-valued JSON object. -/
def dictGet (d : List (String × String)) (k : String) : Option String :=
  (d.find? (fun p => p.1 == k)).map (fun p => p.2)

/-- `batch_id = result.get('id')` (`test-upload-simple.py`, line 62). -/
def extract_batch_id_simple (result : List (String × String)) : Option String :=
  dictGet result "id"

/-- `batch_id = result.get('batchId')` (`test-upload.py`, line 21). -/
def extract_batch_id_requests (result : List (String × String)) : Option String :=
  dictGet result "batchId"

/-- Python `str(...)` of an optional string (`None` prints as "None"). -/
def pyStr (o : Option String) : String := o.getD "None"

/-- The upload-response handling of `test-upload.py` (lines 19-52): the
status code is checked explicitly; on 200 the identifier is extracted and
polling proceeds (`true`), otherwise the status code and the raw response
text are printed and polling is skipped (`false`). -/
def uploadOutcome (status : Nat) (result : List (String × String))
    (respText : String) : List String × Bool :=
  if status = 200 then
    (["✅ Upload successful! Batch ID: " ++ pyStr (dictGet result "batchId")], true)
  else
    (["❌ Upload failed with status code: " ++ toString status,
      "Response: " ++ respText], false)

/-! ## Auxiliary predicate for the round-trip proof -/

/-- No occurrence of `sep` starts strictly inside `v` when the stream
continues with `sep` itself: position `i` of `v` does not begin a match
of `sep`, for any `i < v.length`. This is exactly what `takeUntilSep`
needs in order to cut `v ++ sep ++ r` at `v`. -/
def CleanFor (sep v : List Byte) : Prop :=
  ∀ i < v.length, ¬ sep <+: (v.drop i ++ sep)

/-! ## Concrete sample data for witnesses and counterexamples -/

/-- A boundary of exactly the shape the script generates. -/
def sampleBoundary : List Byte :=
  ascii "----WebKitFormBoundary" ++ ascii "00112233445566778899aabbccddeeff"

/-- A file part whose bytes contain an embedded CRLF (`A\r\nB`). -/
def sampleFile : FilePart := ⟨ascii "file", ascii "test.csv", [65, 13, 10, 66]⟩

/-- A file part whose bytes contain the full boundary delimiter
`CRLF -- boundary` of `sampleBoundary`. -/
def collidingFile : FilePart :=
  ⟨ascii "file", ascii "test.csv", crlf ++ dd ++ sampleBoundary⟩

/-- A batch with terminal status and no optional fields. -/
def batchCompleted : Batch :=
  ⟨some "b1", some "completed", none, none, none, none, none, none, none⟩

/-- A batch in progress with id `b2`. -/
def batchOther : Batch :=
  ⟨some "b2", some "processing", none, none, none, none, none, none, none⟩

/-- A batch entry with no `id` key at all. -/
def batchNoId : Batch :=
  ⟨none, some "processing", none, none, none, none, none, none, none⟩

/-- A batch carrying an `id` but no `status` key. -/
def batchNoStatus : Batch :=
  ⟨some "b1", none, none, none, none, none, none, none, none⟩

/-- Status of the batch a well-formed attempt would locate: the first
entry of the list whose `id` equals the target, if any, and its
`status`. -/
def foundStatus (batches : List Batch) (bid : String) : Option String :=
  (batches.find? (fun b => b.id == some bid)).bind Batch.status

/-- Control action of one attempt, as a function of the search result
(shared shape of the relevant arms of both scripts' attempt bodies). -/
def ctlOfFound (o : Option Batch) : StepCtl :=
  match o with
  | none => StepCtl.cont
  | some b =>
    match b.status with
    | none => StepCtl.raised "KeyError: 'status'"
    | some s => if s = "completed" then StepCtl.breakLoop else StepCtl.cont

/-! ## Theorems -/

/-- C9: the two scripts read different identifier field names from the
upload response: `test-upload-simple.py` reads `id` while
`test-upload.py` reads `batchId`, so on one and the same response they
extract different (mutually inconsistent) values. -/
theorem id_field_names_inconsistent :
    extract_batch_id_simple [("id", "batch-7")] = some "batch-7" ∧
    extract_batch_id_requests [("id", "batch-7")] = none ∧
    extract_batch_id_requests [("batchId", "batch-7")] = some "batch-7" ∧
    extract_batch_id_simple [("batchId", "batch-7")] = none ∧
    extract_batch_id_simple [("id", "batch-7"), ("batchId", "batch-9")]
      ≠ extract_batch_id_requests [("id", "batch-7"), ("batchId", "batch-9")] := by
  refine ⟨rfl, rfl, rfl, rfl, ?_⟩
  decide

/-- C7: when the located batch has `id` and `status` but none of the
optional fields, the snapshot prints the documented defaults (`N/A` for
the current step, `0/0` for the record counts, `pending` for all four
enrichment statuses) and the attempt does not raise. -/
theorem missing_field_defaults (b : Batch) (bid s : String) (i : Nat)
    (hid : b.id = some bid) (hst : b.status = some s)
    (h1 : b.currentStep = none) (h2 : b.processedRecords = none)
    (h3 : b.totalRecords = none) (h4 : b.finexioMatchingStatus = none)
    (h5 : b.googleAddressStatus = none) (h6 : b.mastercardEnrichmentStatus = none)
    (h7 : b.akkioPredictionStatus = none) :
    snapshotLines i b s =
      ["⏱️  Time: " ++ toString (i * 10) ++ "s",
       "📊 Status: " ++ s,
       "📝 Current Step: N/A",
       "📊 Classification: 0/0",
       "🔍 Finexio: pending",
       "📍 Google Address: pending",
       "💳 Mastercard: pending",
       "🤖 Akkio: pending"] ∧
    ∀ m, (attemptStep [b] bid i).2 ≠ StepCtl.raised m := by
  constructor
  · simp only [snapshotLines]
    rw [h1, h2, h3, h4, h5, h6, h7]
    rfl
  · intro m
    simp only [attemptStep, findBatch, hid, if_pos rfl]
    by_cases hc : s = "completed" <;> simp [hst, hc]

/-- Witness for C7 at a concrete batch. -/
theorem missing_field_defaults_witness :
    snapshotLines 0 batchCompleted "completed" =
      ["⏱️  Time: 0s",
       "📊 Status: completed",
       "📝 Current Step: N/A",
       "📊 Classification: 0/0",
       "🔍 Finexio: pending",
       "📍 Google Address: pending",
       "💳 Mastercard: pending",
       "🤖 Akkio: pending"] ∧
    ∀ m, (attemptStep [batchCompleted] "b1" 0).2 ≠ StepCtl.raised m :=
  missing_field_defaults batchCompleted "b1" "completed" 0
    rfl rfl rfl rfl rfl rfl rfl rfl rfl

/-! ### Polling helper lemmas -/

/-- When no entry's `id` equals the target, the search comes back empty
(and does not raise, since every entry carries an `id`). -/
theorem findBatch_notFound (l : List Batch) (bid : String)
    (h : ∀ b ∈ l, ∃ x, b.id = some x ∧ x ≠ bid) :
    findBatch l bid = .ok none := by
  induction l with
  | nil => rfl
  | cons b rest ih =>
    obtain ⟨x, hx, hne⟩ := h b (List.mem_cons_self b rest)
    simp only [findBatch, hx, if_neg hne]
    exact ih (fun b' hb' => h b' (List.mem_cons_of_mem b hb'))

/-- When every entry carries an `id`, the lazy search never raises and
agrees with `List.find?`. -/
theorem findBatch_find (l : List Batch) (bid : String)
    (h : ∀ b ∈ l, b.id.isSome) :
    findBatch l bid = .ok (l.find? (fun b => b.id == some bid)) := by
  induction l with
  | nil => rfl
  | cons b rest ih =>
    obtain ⟨x, hx⟩ := Option.isSome_iff_exists.mp (h b (List.mem_cons_self b rest))
    by_cases hxb : x = bid
    · subst hxb
      simp [findBatch, hx, List.find?]
    · have hfneg : List.find? (fun b => b.id == some bid) (b :: rest)
          = List.find? (fun b => b.id == some bid) rest := by
        rw [List.find?_cons_of_neg]
        simp [hx, hxb]
      rw [hfneg]
      simp only [findBatch, hx, if_neg hxb]
      exact ih (fun b' hb' => h b' (List.mem_cons_of_mem b hb'))

/-- The simple script's attempt control, given the search result. -/
theorem attemptStep_of_found (l : List Batch) (bid : String) (i : Nat)
    (o : Option Batch) (h : findBatch l bid = .ok o) :
    (attemptStep l bid i).2 = ctlOfFound o := by
  cases o with
  | none => simp [attemptStep, h, ctlOfFound]
  | some b =>
    cases hs : b.status with
    | none => simp [attemptStep, h, hs, ctlOfFound]
    | some s =>
      by_cases hc : s = "completed" <;> simp [attemptStep, h, hs, ctlOfFound, hc]

/-- The requests script's attempt control under a 200 response, given
the search result. -/
theorem attemptStepR_of_found (l : List Batch) (bid : String) (i : Nat)
    (o : Option Batch) (h : findBatch l bid = .ok o) :
    (attemptStepR (200, l) bid i).2 = ctlOfFound o := by
  cases o with
  | none => simp [attemptStepR, h, ctlOfFound]
  | some b =>
    cases hs : b.status with
    | none => simp [attemptStepR, h, hs, ctlOfFound]
    | some s =>
      by_cases hc : s = "completed" <;> simp [attemptStepR, h, hs, ctlOfFound, hc]

/-- The attempt control of a well-formed search result is decided by
`foundStatus`: break exactly on the literal status string `"completed"`. -/
theorem ctlOfFound_eq (l : List Batch) (bid : String)
    (hst : ∀ b ∈ l, b.status.isSome) :
    ctlOfFound (l.find? (fun b => b.id == some bid)) =
      (if foundStatus l bid = some "completed" then StepCtl.breakLoop
       else StepCtl.cont) := by
  unfold foundStatus
  cases hf : l.find? (fun b => b.id == some bid) with
  | none => simp [ctlOfFound]
  | some b =>
    obtain ⟨s, hs⟩ := Option.isSome_iff_exists.mp
      (hst b (List.mem_of_find?_eq_some hf))
    by_cases hc : s = "completed" <;> simp [ctlOfFound, hs, hc]

/-- Control action of a well-formed `test-upload-simple.py` attempt:
break exactly when the located batch's status is the literal string
`"completed"`, otherwise continue. -/
theorem attemptStep_ctl (l : List Batch) (bid : String) (i : Nat)
    (hid : ∀ b ∈ l, b.id.isSome) (hst : ∀ b ∈ l, b.status.isSome) :
    (attemptStep l bid i).2 =
      (if foundStatus l bid = some "completed" then StepCtl.breakLoop
       else StepCtl.cont) := by
  rw [attemptStep_of_found l bid i _ (findBatch_find l bid hid)]
  exact ctlOfFound_eq l bid hst

/-- Control action of a well-formed `test-upload.py` attempt under a 200
response: identical to the simple script's. -/
theorem attemptStepR_ctl (l : List Batch) (bid : String) (i : Nat)
    (hid : ∀ b ∈ l, b.id.isSome) (hst : ∀ b ∈ l, b.status.isSome) :
    (attemptStepR (200, l) bid i).2 =
      (if foundStatus l bid = some "completed" then StepCtl.breakLoop
       else StepCtl.cont) := by
  rw [attemptStepR_of_found l bid i _ (findBatch_find l bid hid)]
  exact ctlOfFound_eq l bid hst

/-- A loop whose entered attempts all continue runs through its whole
budget: `r` sleeps, then normal exhaustion. -/
theorem runLoop_exhaust (step : Nat → List String × StepCtl) (i r : Nat)
    (h : ∀ j < r, (step (i + j)).2 = StepCtl.cont) :
    runLoop step i r = ⟨r, .exhausted⟩ := by
  induction r generalizing i with
  | zero => rfl
  | succ r' ih =>
    have h0 : (step i).2 = StepCtl.cont := by
      simpa using h 0 (Nat.succ_pos r')
    simp only [runLoop, h0]
    have := ih (i + 1) (fun j hj => by
      have := h (j + 1) (by omega)
      simpa [Nat.add_assoc, Nat.add_comm 1 j] using this)
    rw [this]

/-- A loop that first breaks at relative attempt `k` stops there: `k + 1`
sleeps (one per attempt entered, none after the break) and outcome
`completed` at absolute index `i + k`. -/
theorem runLoop_break (step : Nat → List String × StepCtl) (i r k : Nat)
    (hk : k < r)
    (hc : ∀ j < k, (step (i + j)).2 = StepCtl.cont)
    (hb : (step (i + k)).2 = StepCtl.breakLoop) :
    runLoop step i r = ⟨k + 1, .completed (i + k)⟩ := by
  induction k generalizing i r with
  | zero =>
    obtain ⟨r', rfl⟩ : ∃ r', r = r' + 1 := ⟨r - 1, by omega⟩
    have hb0 : (step i).2 = StepCtl.breakLoop := by simpa using hb
    simp [runLoop, hb0]
  | succ k' ih =>
    obtain ⟨r', rfl⟩ : ∃ r', r = r' + 1 := ⟨r - 1, by omega⟩
    have h0 : (step i).2 = StepCtl.cont := by
      simpa using hc 0 (Nat.succ_pos k')
    simp only [runLoop, h0]
    have := ih (i + 1) r' (by omega)
      (fun j hj => by
        have := hc (j + 1) (by omega)
        simpa [Nat.add_assoc, Nat.add_comm 1 j] using this)
      (by
        have : i + 1 + k' = i + (k' + 1) := by omega
        rw [this]; exact hb)
    rw [this]
    have : i + 1 + k' = i + (k' + 1) := by omega
    rw [this]

/-- C4: with well-formed mock responses, both polling loops stop at the
first attempt whose located batch has status `"completed"` (and at no
earlier attempt, whatever other status values occur there): the break
happens at attempt `k` (0-based) and exactly `k + 1` sleeps were
executed, i.e. no sleep follows the completed observation. -/
theorem poll_stops_at_first_completed
    (responses : Nat → List Batch) (bid : String) (k : Nat)
    (hid : ∀ j, ∀ b ∈ responses j, b.id.isSome)
    (hst : ∀ j, ∀ b ∈ responses j, b.status.isSome)
    (hk : k < pollAttempts)
    (hfirst : foundStatus (responses k) bid = some "completed")
    (hbefore : ∀ j < k, foundStatus (responses j) bid ≠ some "completed") :
    pollLoopSimple responses bid = ⟨k + 1, .completed k⟩ ∧
    pollLoopRequests (fun j => (200, responses j)) bid = ⟨k + 1, .completed k⟩ := by
  constructor
  · have := runLoop_break (fun i => attemptStep (responses i) bid i) 0 pollAttempts k hk
      (fun j hj => by
        simp only [Nat.zero_add]
        rw [attemptStep_ctl _ _ _ (hid j) (hst j)]
        exact if_neg (hbefore j hj))
      (by
        simp only [Nat.zero_add]
        rw [attemptStep_ctl _ _ _ (hid k) (hst k)]
        exact if_pos hfirst)
    simpa [pollLoopSimple] using this
  · have := runLoop_break (fun i => attemptStepR (200, responses i) bid i) 0 pollAttempts k hk
      (fun j hj => by
        simp only [Nat.zero_add]
        rw [attemptStepR_ctl _ _ _ (hid j) (hst j)]
        exact if_neg (hbefore j hj))
      (by
        simp only [Nat.zero_add]
        rw [attemptStepR_ctl _ _ _ (hid k) (hst k)]
        exact if_pos hfirst)
    simpa [pollLoopRequests] using this

/-- Witness for C4: a completed batch visible from the first attempt. -/
theorem poll_stops_at_first_completed_witness :
    pollLoopSimple (fun _ => [batchCompleted]) "b1" = ⟨1, .completed 0⟩ ∧
    pollLoopRequests (fun _ => (200, [batchCompleted])) "b1" = ⟨1, .completed 0⟩ := by
  have hwid : ∀ b ∈ [batchCompleted], (Batch.id b).isSome := by decide
  have hwst : ∀ b ∈ [batchCompleted], (Batch.status b).isSome := by decide
  exact poll_stops_at_first_completed (fun _ => [batchCompleted]) "b1" 0
    (fun _ => hwid) (fun _ => hwst) (by decide) (by decide)
    (fun j hj => absurd hj (by omega))

/-- C5: when no attempt's batch list contains an entry with the target
identifier, both loops run all 30 attempts (30 sleeps, one before each
attempt), end by normal exhaustion without raising, and the resulting
process exit code is the same one a successfully completed run yields
(0 in both scripts), so nothing machine-readable distinguishes
exhaustion from success. -/
theorem poll_exhausts_when_never_found
    (responses : Nat → List Batch) (bid : String)
    (h : ∀ j, ∀ b ∈ responses j, ∃ x, b.id = some x ∧ x ≠ bid) :
    pollLoopSimple responses bid = ⟨pollAttempts, .exhausted⟩ ∧
    pollLoopRequests (fun j => (200, responses j)) bid = ⟨pollAttempts, .exhausted⟩ ∧
    exitCodeSimple (pollLoopSimple responses bid) =
      exitCodeSimple ⟨1, .completed 0⟩ ∧
    exitCodeRequests (pollLoopRequests (fun j => (200, responses j)) bid) =
      exitCodeRequests ⟨1, .completed 0⟩ := by
  have h1 : pollLoopSimple responses bid = ⟨pollAttempts, .exhausted⟩ := by
    have := runLoop_exhaust (fun i => attemptStep (responses i) bid i) 0 pollAttempts
      (fun j _ => by
        simp only [Nat.zero_add]
        simp [attemptStep, findBatch_notFound (responses j) bid (h j)])
    simpa [pollLoopSimple] using this
  have h2 : pollLoopRequests (fun j => (200, responses j)) bid
      = ⟨pollAttempts, .exhausted⟩ := by
    have := runLoop_exhaust (fun i => attemptStepR (200, responses i) bid i) 0 pollAttempts
      (fun j _ => by
        simp only [Nat.zero_add]
        simp [attemptStepR, findBatch_notFound (responses j) bid (h j)])
    simpa [pollLoopRequests] using this
  refine ⟨h1, h2, rfl, ?_⟩
  rw [h2]
  decide

/-- Witness for C5: every attempt sees only a batch with a different id. -/
theorem poll_exhausts_when_never_found_witness :
    pollLoopSimple (fun _ => [batchOther]) "b1" = ⟨pollAttempts, .exhausted⟩ ∧
    pollLoopRequests (fun _ => (200, [batchOther])) "b1" = ⟨pollAttempts, .exhausted⟩ ∧
    exitCodeSimple (pollLoopSimple (fun _ => [batchOther]) "b1") =
      exitCodeSimple ⟨1, .completed 0⟩ ∧
    exitCodeRequests (pollLoopRequests (fun _ => (200, [batchOther])) "b1") =
      exitCodeRequests ⟨1, .completed 0⟩ := by
  have hw : ∀ b ∈ [batchOther], ∃ x, Batch.id b = some x ∧ x ≠ "b1" := by decide
  exact poll_exhausts_when_never_found (fun _ => [batchOther]) "b1" (fun _ => hw)

/-- C6 counterexample: in `test-upload.py` an attempt whose (200)
response does not contain the target batch prints nothing at all — the
`else` on its lines 48-49 belongs to the status-code check, not to
`if batch:` — contradicting the claim that both scripts print a warning
in this situation. -/
theorem not_found_warning_cex :
    attemptStepR (200, [batchOther]) "b1" 0 = ([], StepCtl.cont) := by
  decide

/-- C6 amended: on an attempt in which no entry's id equals the target,
`test-upload-simple.py` prints its warning line and continues, while
`test-upload.py` silently continues; neither raises or aborts early. -/
theorem not_found_attempt_behavior (batches : List Batch) (bid : String) (i : Nat)
    (h : ∀ b ∈ batches, ∃ x, b.id = some x ∧ x ≠ bid) :
    attemptStep batches bid i =
      (["⚠️ Batch " ++ bid ++ " not found in list"], StepCtl.cont) ∧
    attemptStepR (200, batches) bid i = ([], StepCtl.cont) := by
  have hf := findBatch_notFound batches bid h
  exact ⟨by simp [attemptStep, hf], by simp [attemptStepR, hf]⟩

/-- Witness for the amended C6. -/
theorem not_found_attempt_behavior_witness :
    attemptStep [batchOther] "b1" 3 =
      (["⚠️ Batch b1 not found in list"], StepCtl.cont) ∧
    attemptStepR (200, [batchOther]) "b1" 3 = ([], StepCtl.cont) :=
  not_found_attempt_behavior [batchOther] "b1" 3 (by decide)

/-- C8 counterexample: the claim that every field access is defensive
fails — the identifier lookup `b['id']` is a plain subscript, so a batch
list whose entry lacks `id` makes the client raise `KeyError` during the
search. -/
theorem defensive_access_cex :
    findBatch [batchNoId] "b1" = .error "KeyError: 'id'" := by
  rfl

/-- C8 amended: the optional display fields are read defensively with
defaults — an attempt can only raise through the two plain subscripts
`b['id']` (during the search) and `batch['status']`; with those two keys
present on every entry an attempt never raises, while a missing `id`
fails the search and a located batch without `status` raises. -/
theorem defensive_access_partial :
    (∀ (batches : List Batch) (bid : String) (i : Nat),
       (∀ b ∈ batches, b.id.isSome) → (∀ b ∈ batches, b.status.isSome) →
       ∀ m, (attemptStep batches bid i).2 ≠ StepCtl.raised m) ∧
    findBatch [batchNoId] "b1" = Except.error "KeyError: 'id'" ∧
    (attemptStep [batchNoStatus] "b1" 0).2 = StepCtl.raised "KeyError: 'status'" := by
  refine ⟨?_, rfl, rfl⟩
  intro batches bid i h1 h2 m
  rw [attemptStep_ctl batches bid i h1 h2]
  split <;> simp

/-- Witness for the amended C8. -/
theorem defensive_access_partial_witness :
    (attemptStep [batchOther] "b1" 0).2 ≠ StepCtl.raised "boom" :=
  defensive_access_partial.1 [batchOther] "b1" 0 (by decide) (by decide) "boom"

/-- C10 counterexample: the polling loop of `test-upload.py` does apply
a status-code guard to its network call — the same attempt input handled
under a 500 response prints the failure line and continues, while under
a 200 response it processes the batch and breaks — contradicting the
claim that status codes are checked only for the upload step. -/
theorem polling_status_guard_cex :
    attemptStepR (500, [batchCompleted]) "b1" 0 =
      (["❌ Failed to get batch status: 500"], StepCtl.cont) ∧
    (attemptStepR (200, [batchCompleted]) "b1" 0).2 = StepCtl.breakLoop := by
  constructor
  · decide
  · decide

/-- C10 amended: `test-upload.py` checks HTTP status codes explicitly in
both places — a non-200 upload response prints the status code and raw
response text and skips polling entirely, and a non-200 polling response
prints a failure line and continues with the next attempt; only the
exception side has no guard. -/
theorem status_code_checks (status : Nat) (result : List (String × String))
    (respText : String) (batches : List Batch) (bid : String) (i : Nat)
    (h : status ≠ 200) :
    uploadOutcome status result respText =
      (["❌ Upload failed with status code: " ++ toString status,
        "Response: " ++ respText], false) ∧
    (uploadOutcome 200 result respText).2 = true ∧
    attemptStepR (status, batches) bid i =
      (["❌ Failed to get batch status: " ++ toString status], StepCtl.cont) := by
  exact ⟨by simp [uploadOutcome, h], by simp [uploadOutcome],
    by simp [attemptStepR, h]⟩

/-- Witness for the amended C10 at a 500 upload / 500 polling response. -/
theorem status_code_checks_witness :
    uploadOutcome 500 [] "oops" =
      (["❌ Upload failed with status code: 500", "Response: oops"], false) ∧
    (uploadOutcome 200 [] "oops").2 = true ∧
    attemptStepR (500, [batchCompleted]) "b1" 2 =
      (["❌ Failed to get batch status: 500"], StepCtl.cont) := by
  have := status_code_checks 500 [] "oops" [batchCompleted] "b1" 2 (by decide)
  simpa using this

/-! ### List splitting machinery for the round-trip proof -/

/-- Boolean prefix test agrees with the prefix relation. -/
theorem isPre_iff (p l : List Byte) : p.isPrefixOf l = true ↔ p <+: l :=
  List.isPrefixOf_iff_prefix

/-- A prefix of `a ++ b` no longer than `a` is a prefix of `a`. -/
theorem preOfPreAppend (p a b : List Byte) (h : p <+: a ++ b)
    (hl : p.length ≤ a.length) : p <+: a := by
  obtain ⟨t, ht⟩ := h
  have h1 : a.take p.length = p := by
    have h2 := congrArg (List.take p.length) ht
    rw [List.take_left, List.take_append_eq_append_take,
      Nat.sub_eq_zero_of_le hl, List.take_zero, List.append_nil] at h2
    exact h2.symm
  have h3 := List.take_append_drop p.length a
  rw [h1] at h3
  exact ⟨a.drop p.length, h3⟩

/-- A prefix of `a ++ b` longer than `a` starts with all of `a` and
continues with an initial segment of `b`. -/
theorem preDecompose (p a b : List Byte) (hp : p <+: a ++ b)
    (hgt : a.length < p.length) : p = a ++ b.take (p.length - a.length) := by
  obtain ⟨t, ht⟩ := hp
  have h2 := congrArg (List.take p.length) ht
  rw [List.take_left, List.take_append_eq_append_take,
    List.take_of_length_le (by omega)] at h2
  exact h2

/-- A byte stream whose bytes avoid the separator's first byte is clean
for that separator. -/
theorem cleanOfHeadNotMem (c : Byte) (tl v : List Byte) (h : c ∉ v) :
    CleanFor (c :: tl) v := by
  intro i hi hp
  cases hd : v.drop i with
  | nil =>
    have := List.drop_eq_nil_iff.mp hd
    omega
  | cons y ys =>
    rw [hd, List.cons_append, List.cons_prefix_cons] at hp
    refine h ?_
    rw [hp.1]
    have hy : y ∈ v.drop i := by rw [hd]; exact List.mem_cons_self y ys
    exact List.drop_subset i v hy

/-- Prepending bytes that avoid the separator's first byte preserves
cleanness. -/
theorem cleanAppendHeadNotMem (c : Byte) (tl x y : List Byte)
    (hx : c ∉ x) (hy : CleanFor (c :: tl) y) :
    CleanFor (c :: tl) (x ++ y) := by
  intro i hi hp
  by_cases hix : i < x.length
  · have hdrop : (x ++ y).drop i = x.drop i ++ y := by
      rw [List.drop_append_eq_append_drop, Nat.sub_eq_zero_of_le (by omega),
        List.drop_zero]
    cases hd : x.drop i with
    | nil =>
      have := List.drop_eq_nil_iff.mp hd
      omega
    | cons z zs =>
      rw [hdrop, hd, List.cons_append, List.cons_append,
        List.cons_prefix_cons] at hp
      refine hx ?_
      rw [hp.1]
      have hz : z ∈ x.drop i := by rw [hd]; exact List.mem_cons_self z zs
      exact List.drop_subset i x hz
  · have hdrop : (x ++ y).drop i = y.drop (i - x.length) := by
      rw [List.drop_append_eq_append_drop,
        List.drop_eq_nil_of_le (by omega), List.nil_append]
    rw [hdrop] at hp
    have hlen : i - x.length < y.length := by
      rw [List.length_append] at hi
      omega
    exact hy (i - x.length) hlen hp

/-- A separator whose first byte recurs nowhere else in it, and which is
not an infix of `v`, leaves `v` clean. -/
theorem cleanOfNotInfix (c : Byte) (tl v : List Byte)
    (hc : c ∉ tl) (hv : ¬ (c :: tl) <:+: v) : CleanFor (c :: tl) v := by
  intro i hi hp
  by_cases hlen : (c :: tl).length ≤ (v.drop i).length
  · have hpre : (c :: tl) <+: v.drop i := preOfPreAppend _ _ _ hp hlen
    obtain ⟨u, hu⟩ := hpre
    refine hv ⟨v.take i, u, ?_⟩
    rw [List.append_assoc, hu]
    exact List.take_append_drop i v
  · have hd := preDecompose _ _ _ hp (by omega)
    obtain ⟨k, hk⟩ : ∃ k, (c :: tl).length - (v.drop i).length = k + 1 :=
      ⟨(c :: tl).length - (v.drop i).length - 1, by omega⟩
    rw [hk, List.take_succ_cons] at hd
    cases hw : v.drop i with
    | nil =>
      have := List.drop_eq_nil_iff.mp hw
      omega
    | cons y ys =>
      rw [hw, List.cons_append] at hd
      have htl : tl = ys ++ c :: List.take k tl := (List.cons.injEq _ _ _ _).mp hd |>.2
      refine hc ?_
      rw [htl]
      exact List.mem_append_right ys (List.mem_cons_self c _)

/-- The key cutting lemma: on a stream `v ++ sep ++ r` with `v` clean for
`sep`, the splitter cuts exactly at the planted separator. -/
theorem takeUntilSep_exact (sep v r : List Byte) (hne : sep ≠ [])
    (hcl : CleanFor sep v) :
    takeUntilSep sep (v ++ sep ++ r) = some (v, r) := by
  induction v with
  | nil =>
    cases sep with
    | nil => exact absurd rfl hne
    | cons s0 st =>
      rw [List.nil_append, List.cons_append]
      simp only [takeUntilSep]
      rw [if_pos ((isPre_iff _ _).mpr (by
        rw [← List.cons_append]
        exact List.prefix_append (s0 :: st) r))]
      simp only [List.length_cons, List.drop_succ_cons]
      rw [List.drop_left]
  | cons x v' ih =>
    have hcl' : CleanFor sep v' := by
      intro i hi hp
      exact hcl (i + 1) (by simp only [List.length_cons]; omega)
        (by simpa [List.drop_succ_cons] using hp)
    have hnotpre : ¬ sep.isPrefixOf (x :: (v' ++ sep ++ r)) = true := by
      intro hpre
      have h1 : sep <+: (x :: v') ++ sep ++ r := by
        rw [List.cons_append, List.cons_append]
        exact (isPre_iff _ _).mp hpre
      have h2 : sep <+: (x :: v') ++ sep := by
        refine preOfPreAppend sep ((x :: v') ++ sep) r ?_ (by
          simp only [List.length_append, List.length_cons]; omega)
        rw [List.append_assoc] at h1 ⊢
        exact h1
      exact hcl 0 (by simp) (by simpa using h2)
    rw [List.cons_append, List.cons_append]
    simp only [takeUntilSep]
    rw [if_neg hnotpre, ih hcl']

/-- Dropping a planted literal at the front of a stream. -/
theorem dropPre_append (p r : List Byte) : dropPre p (p ++ r) = some r := by
  unfold dropPre
  rw [if_pos ((isPre_iff _ _).mpr (List.prefix_append p r)), List.drop_left]

/-- A CR-free pattern that is not a prefix of `v` is also not a prefix of
`v` followed by a CR-headed continuation. -/
theorem noPreExt (p v rest' : List Byte) (hc : CRb ∉ p) (h : ¬ p <+: v) :
    ¬ p <+: (v ++ CRb :: rest') := by
  intro hp
  by_cases hl : p.length ≤ v.length
  · exact h (preOfPreAppend _ _ _ hp hl)
  · have hd := preDecompose _ _ _ hp (by omega)
    obtain ⟨k, hk⟩ : ∃ k, p.length - v.length = k + 1 :=
      ⟨p.length - v.length - 1, by omega⟩
    rw [hk, List.take_succ_cons] at hd
    refine hc ?_
    rw [hd]
    exact List.mem_append_right v (List.mem_cons_self CRb _)

/-- Cleanness is preserved by prepending a CRLF when the line after it
does not start with the separator's third byte. -/
theorem cleanCrlfPrepend (c : Byte) (tl w : List Byte) (a : Byte) (w'' : List Byte)
    (hw : w = a :: w'') (hac : a ≠ c)
    (hcl : CleanFor (13 :: 10 :: c :: tl) w) :
    CleanFor (13 :: 10 :: c :: tl) (13 :: 10 :: w) := by
  intro i hi hp
  rcases i with _ | (_ | j)
  · rw [List.drop_zero, List.cons_append, List.cons_append,
      List.cons_prefix_cons] at hp
    obtain ⟨-, hp⟩ := hp
    rw [List.cons_prefix_cons] at hp
    obtain ⟨-, hp⟩ := hp
    rw [hw, List.cons_append, List.cons_prefix_cons] at hp
    exact hac hp.1.symm
  · simp only [List.drop_succ_cons, List.drop_zero] at hp
    rw [List.cons_append, List.cons_prefix_cons] at hp
    exact absurd hp.1 (by decide)
  · simp only [List.drop_succ_cons] at hp
    have hj : j < w.length := by
      simp only [List.length_cons] at hi
      omega
    exact hcl j hj hp

/-- The stream segment starting at the empty line that ends a header
block is clean for the delimiter, provided the content neither contains
the delimiter nor starts with `-- boundary`. -/
theorem cleanCrlfCrlfContent (B V : List Byte) (hB : CRb ∉ B)
    (h1 : ¬ (crlf ++ dd ++ B) <:+: V) (h2 : ¬ (dd ++ B) <+: V) :
    CleanFor (crlf ++ dd ++ B) (crlf ++ crlf ++ V) := by
  have hsep : crlf ++ dd ++ B = 13 :: 10 :: 45 :: 45 :: B := rfl
  have hccv : crlf ++ crlf ++ V = 13 :: 10 :: 13 :: 10 :: V := rfl
  rw [hsep] at h1
  rw [hsep, hccv]
  intro i hi hp
  rcases i with _ | (_ | (_ | (_ | j)))
  · rw [List.drop_zero, List.cons_append, List.cons_append,
      List.cons_prefix_cons] at hp
    obtain ⟨-, hp⟩ := hp
    rw [List.cons_prefix_cons] at hp
    obtain ⟨-, hp⟩ := hp
    rw [List.cons_append, List.cons_prefix_cons] at hp
    exact absurd hp.1 (by decide)
  · simp only [List.drop_succ_cons, List.drop_zero] at hp
    rw [List.cons_append, List.cons_prefix_cons] at hp
    exact absurd hp.1 (by decide)
  · simp only [List.drop_succ_cons, List.drop_zero] at hp
    rw [List.cons_append, List.cons_prefix_cons] at hp
    obtain ⟨-, hp⟩ := hp
    rw [List.cons_append, List.cons_prefix_cons] at hp
    obtain ⟨-, hp⟩ := hp
    refine noPreExt (45 :: 45 :: B) V (10 :: 45 :: 45 :: B) ?_ ?_ hp
    · simp only [CRb, List.mem_cons]
      push_neg
      exact ⟨by decide, by decide, fun hmem => absurd hmem hB⟩
    · intro hpre
      exact h2 (by simpa [dd] using hpre)
  · simp only [List.drop_succ_cons, List.drop_zero] at hp
    rw [List.cons_append, List.cons_prefix_cons] at hp
    exact absurd hp.1 (by decide)
  · simp only [List.drop_succ_cons] at hp
    have hj : j < V.length := by
      simp only [List.length_cons] at hi
      omega
    refine cleanOfNotInfix 13 (10 :: 45 :: 45 :: B) V ?_ h1 j hj hp
    simp only [List.mem_cons]
    push_neg
    exact ⟨by decide, by decide, by decide, fun hmem => absurd hmem hB⟩

/-- Boundaries the script generates contain no CR byte. -/
theorem validBoundary_noCR (B : List Byte) (hB : validBoundary B) : CRb ∉ B := by
  obtain ⟨h, rfl, -, hhex⟩ := hB
  intro hmem
  rcases List.mem_append.mp hmem with hpre | hin
  · exact absurd hpre (by decide)
  · have := hhex CRb hin
    exact absurd this (by decide)

/-- The header block of a field part contains no CR byte. -/
theorem noCR_fieldHeader (n : List Byte) (hn : CRb ∉ n) :
    CRb ∉ fieldHeaderBytes n := by
  intro hmem
  rcases List.mem_append.mp hmem with h' | h'
  · rcases List.mem_append.mp h' with h'' | h''
    · exact absurd h'' (by decide)
    · exact hn h''
  · exact absurd h' (by decide)

/-- The first line of the file part's header block contains no CR byte. -/
theorem noCR_fileHeaderLineOne (f : FilePart)
    (hfn : CRb ∉ f.fname) (hfl : CRb ∉ f.filename) :
    CRb ∉ cdName ++ f.fname ++ ascii "\"; filename=\"" ++ f.filename ++ [QUOTb] := by
  intro hmem
  simp only [List.append_assoc, List.mem_append] at hmem
  rcases hmem with h' | h' | h' | h' | h'
  · exact absurd h' (by decide)
  · exact hfn h'
  · exact absurd h' (by decide)
  · exact hfl h'
  · exact absurd h' (by decide)

/-- A field part is clean for the delimiter: the header is CR-free and
the content neither contains the delimiter nor starts with
`-- boundary`. -/
theorem cleanFieldPart (B n v : List Byte) (hB : CRb ∉ B) (hn : CRb ∉ n)
    (h1 : ¬ (crlf ++ dd ++ B) <:+: v) (h2 : ¬ (dd ++ B) <+: v) :
    CleanFor (crlf ++ dd ++ B) (fieldPartBytes (n, v)) := by
  have heq : fieldPartBytes (n, v)
      = fieldHeaderBytes n ++ (crlf ++ crlf ++ v) := by
    simp [fieldPartBytes, List.append_assoc]
  rw [heq]
  have hsep : crlf ++ dd ++ B = 13 :: (10 :: 45 :: 45 :: B) := rfl
  rw [hsep]
  refine cleanAppendHeadNotMem 13 _ _ _ (noCR_fieldHeader n hn) ?_
  rw [← hsep]
  exact cleanCrlfCrlfContent B v hB h1 h2

/-- The file part is clean for the delimiter under the same conditions
on its name, filename and data. -/
theorem cleanFilePart (B : List Byte) (f : FilePart) (hB : CRb ∉ B)
    (hfn : CRb ∉ f.fname) (hfl : CRb ∉ f.filename)
    (h1 : ¬ (crlf ++ dd ++ B) <:+: f.fdata) (h2 : ¬ (dd ++ B) <+: f.fdata) :
    CleanFor (crlf ++ dd ++ B) (filePartBytes f) := by
  have heq : filePartBytes f
      = (cdName ++ f.fname ++ ascii "\"; filename=\"" ++ f.filename ++ [QUOTb])
        ++ (13 :: (10 :: (ctLine ++ (crlf ++ crlf ++ f.fdata)))) := by
    simp [filePartBytes, fileHeaderBytes, crlf, CRb, LFb, List.append_assoc]
  rw [heq]
  have hsep : crlf ++ dd ++ B = 13 :: (10 :: 45 :: 45 :: B) := rfl
  rw [hsep]
  refine cleanAppendHeadNotMem 13 _ _ _ (noCR_fileHeaderLineOne f hfn hfl) ?_
  have hctcons : ctLine ++ (crlf ++ crlf ++ f.fdata)
      = 67 :: (ascii "ontent-Type: text/csv" ++ (crlf ++ crlf ++ f.fdata)) := by
    rw [show ctLine = 67 :: ascii "ontent-Type: text/csv" from rfl, List.cons_append]
  refine cleanCrlfPrepend 45 (45 :: B) _ 67 _ hctcons (by decide) ?_
  refine cleanAppendHeadNotMem 13 _ _ _ (by decide : CRb ∉ ctLine) ?_
  rw [← hsep]
  exact cleanCrlfCrlfContent B f.fdata hB h1 h2

/-- A CR-free header block is clean for the empty-line separator. -/
theorem cleanHeaderCrlfCrlf (h : List Byte) (hh : CRb ∉ h) :
    CleanFor (crlf ++ crlf) h := by
  have hsep : crlf ++ crlf = 13 :: [10, 13, 10] := rfl
  rw [hsep]
  exact cleanOfHeadNotMem 13 _ h hh

/-- Decoding the header block of a field part recovers the field name
and no filename. -/
theorem parseHeaderBlock_field (n : List Byte) (hq : QUOTb ∉ n) :
    parseHeaderBlock (fieldHeaderBytes n) = some (n, none) := by
  have h1 : fieldHeaderBytes n
      = ascii "Content-Disposition: form-data; name=\"" ++ (n ++ [QUOTb]) := by
    simp [fieldHeaderBytes, cdName, List.append_assoc]
  have h2 : takeUntilSep [QUOTb] (n ++ [QUOTb]) = some (n, []) := by
    have h3 : n ++ [QUOTb] = n ++ [QUOTb] ++ [] := by rw [List.append_nil]
    rw [h3]
    exact takeUntilSep_exact [QUOTb] n [] (by decide)
      (cleanOfHeadNotMem QUOTb [] n hq)
  simp only [parseHeaderBlock]
  rw [h1, dropPre_append]
  simp only [h2]
  rfl

/-- Decoding the header block of the file part recovers both the field
name and the filename. -/
theorem parseHeaderBlock_file (f : FilePart)
    (hq1 : QUOTb ∉ f.fname) (hq2 : QUOTb ∉ f.filename) :
    parseHeaderBlock (fileHeaderBytes f) = some (f.fname, some f.filename) := by
  have h1 : fileHeaderBytes f
      = ascii "Content-Disposition: form-data; name=\""
        ++ (f.fname ++ [QUOTb]
            ++ (ascii "; filename=\""
                ++ (f.filename ++ [QUOTb] ++ (crlf ++ ctLine)))) := by
    have hqsplit : ascii "\"; filename=\"" = [QUOTb] ++ ascii "; filename=\"" := by
      decide
    simp [fileHeaderBytes, cdName, hqsplit, List.append_assoc]
  have htake1 := takeUntilSep_exact [QUOTb] f.fname
    (ascii "; filename=\"" ++ (f.filename ++ [QUOTb] ++ (crlf ++ ctLine)))
    (by decide) (cleanOfHeadNotMem QUOTb [] f.fname hq1)
  have hne : ascii "; filename=\""
      ++ (f.filename ++ [QUOTb] ++ (crlf ++ ctLine)) ≠ [] := by
    exact List.append_ne_nil_of_left_ne_nil (by decide) _
  have htake2 := takeUntilSep_exact [QUOTb] f.filename (crlf ++ ctLine)
    (by decide) (cleanOfHeadNotMem QUOTb [] f.filename hq2)
  simp only [parseHeaderBlock]
  rw [h1, dropPre_append]
  simp only [htake1]
  rw [if_neg hne, dropPre_append]
  simp only [htake2]

/-- Decoding a field part recovers the name and the value bytes. -/
theorem parsePartBytes_field (n v : List Byte) (hCR : CRb ∉ n) (hq : QUOTb ∉ n) :
    parsePartBytes (fieldPartBytes (n, v)) = some ⟨n, none, v⟩ := by
  have heq : fieldPartBytes (n, v) = fieldHeaderBytes n ++ (crlf ++ crlf) ++ v := by
    simp [fieldPartBytes, List.append_assoc]
  simp only [parsePartBytes]
  rw [heq, takeUntilSep_exact (crlf ++ crlf) (fieldHeaderBytes n) v (by decide)
    (cleanHeaderCrlfCrlf _ (noCR_fieldHeader n hCR))]
  simp only [parseHeaderBlock_field n hq]

/-- Decoding the file part recovers the name, the filename and the file
bytes. -/
theorem parsePartBytes_file (f : FilePart)
    (hCRn : CRb ∉ f.fname) (hqn : QUOTb ∉ f.fname)
    (hCRf : CRb ∉ f.filename) (hqf : QUOTb ∉ f.filename) :
    parsePartBytes (filePartBytes f) = some ⟨f.fname, some f.filename, f.fdata⟩ := by
  have heq : filePartBytes f = fileHeaderBytes f ++ (crlf ++ crlf) ++ f.fdata := by
    simp [filePartBytes, List.append_assoc]
  have hclean : CleanFor (crlf ++ crlf) (fileHeaderBytes f) := by
    have heq2 : fileHeaderBytes f
        = (cdName ++ f.fname ++ ascii "\"; filename=\"" ++ f.filename ++ [QUOTb])
          ++ (13 :: (10 :: ctLine)) := by
      simp [fileHeaderBytes, crlf, CRb, LFb, List.append_assoc]
    rw [heq2]
    have hsep : crlf ++ crlf = 13 :: (10 :: 13 :: [10]) := rfl
    rw [hsep]
    refine cleanAppendHeadNotMem 13 _ _ _ (noCR_fileHeaderLineOne f hCRn hCRf) ?_
    refine cleanCrlfPrepend 13 [10] ctLine 67 (ascii "ontent-Type: text/csv")
      (by decide) (by decide) ?_
    exact cleanOfHeadNotMem 13 _ _ (by decide)
  simp only [parsePartBytes]
  rw [heq, takeUntilSep_exact (crlf ++ crlf) (fileHeaderBytes f) f.fdata
    (by decide) hclean]
  simp only [parseHeaderBlock_file f hqn hqf]

/-- The encoder body is the opening boundary line followed by the
delimiter-separated stream of raw parts. -/
theorem encodeBody_restStream (B : List Byte)
    (fields : List (List Byte × List Byte)) (f : FilePart) :
    (encode_multipart_formdata B fields [f]).1
      = dd ++ B ++ crlf
        ++ restStream (crlf ++ dd ++ B) (filePartBytes f)
             (fields.map fieldPartBytes) := by
  have hq : ascii "\"" = [QUOTb] := by decide
  induction fields with
  | nil =>
    simp [encode_multipart_formdata, restStream, fileChunk, filePartBytes,
      fileHeaderBytes, closingChunk, cdName, ctLine, hq, List.append_assoc]
  | cons nv rest ih =>
    have hsplit : (encode_multipart_formdata B (nv :: rest) [f]).1
        = fieldChunk B nv.1 nv.2 ++ (encode_multipart_formdata B rest [f]).1 := by
      simp [encode_multipart_formdata, List.append_assoc]
    rw [hsplit, ih]
    simp [restStream, fieldChunk, fieldPartBytes, fieldHeaderBytes, cdName,
      hq, List.append_assoc]

/-- The stream is longer than the number of raw parts it carries. -/
theorem restStream_length (delim fp : List Byte) (ps : List (List Byte))
    (hd : 1 ≤ delim.length) :
    ps.length + 1 ≤ (restStream delim fp ps).length := by
  induction ps with
  | nil =>
    simp only [restStream, List.length_append, List.length_nil]
    omega
  | cons p ps ih =>
    simp only [restStream, List.length_append, List.length_cons]
    simp only [List.length_cons] at ih ⊢
    omega

/-- Splitting the stream at the delimiter recovers exactly the planted
raw parts, field parts first, file part last. -/
theorem splitParts_restStream (delim fp : List Byte) (ps : List (List Byte))
    (hne : delim ≠ [])
    (hfp : CleanFor delim fp) (hps : ∀ p ∈ ps, CleanFor delim p) :
    ∀ fuel, ps.length + 1 ≤ fuel →
      splitParts delim fuel (restStream delim fp ps) = some (ps ++ [fp]) := by
  induction ps with
  | nil =>
    intro fuel hfuel
    obtain ⟨fuel', rfl⟩ : ∃ k, fuel = k + 1 := ⟨fuel - 1, by omega⟩
    have h1 : restStream delim fp [] = fp ++ delim ++ (dd ++ crlf) := by
      simp [restStream, List.append_assoc]
    have h2 := takeUntilSep_exact delim fp (dd ++ crlf) hne hfp
    have h3 : dd.isPrefixOf (dd ++ crlf) = true := rfl
    simp only [splitParts, h1, h2, h3, if_true, List.nil_append]
  | cons p ps ih =>
    intro fuel hfuel
    obtain ⟨fuel', rfl⟩ : ∃ k, fuel = k + 1 := ⟨fuel - 1, by omega⟩
    have hp := hps p (List.mem_cons_self p ps)
    have h1 : restStream delim fp (p :: ps)
        = p ++ delim ++ (crlf ++ restStream delim fp ps) := by
      simp [restStream, List.append_assoc]
    have h2 := takeUntilSep_exact delim p (crlf ++ restStream delim fp ps) hne hp
    have h3 : dd.isPrefixOf (crlf ++ restStream delim fp ps) = false := rfl
    have h4 : dropPre crlf (crlf ++ restStream delim fp ps)
        = some (restStream delim fp ps) := dropPre_append crlf _
    have h5 := ih (fun q hq => hps q (List.mem_cons_of_mem p hq)) fuel'
      (by simp only [List.length_cons] at hfuel; omega)
    simp only [splitParts, h1, h2, h3, h4, h5, Bool.false_eq_true, if_false,
      List.cons_append]

/-- Decoding the raw parts of an encoder run recovers all field names,
values, the file name, filename and file bytes. -/
theorem decodeParts_encodeParts (fields : List (List Byte × List Byte))
    (f : FilePart)
    (hn : ∀ nv ∈ fields, CRb ∉ nv.1 ∧ QUOTb ∉ nv.1)
    (hf : CRb ∉ f.fname ∧ QUOTb ∉ f.fname ∧ CRb ∉ f.filename ∧ QUOTb ∉ f.filename) :
    decodeParts (fields.map fieldPartBytes ++ [filePartBytes f])
      = some (fields.map (fun nv => ⟨nv.1, none, nv.2⟩)
          ++ [⟨f.fname, some f.filename, f.fdata⟩]) := by
  induction fields with
  | nil =>
    simp [decodeParts, parsePartBytes_file f hf.1 hf.2.1 hf.2.2.1 hf.2.2.2]
  | cons nv rest ih =>
    obtain ⟨n, v⟩ := nv
    have h1 := hn (n, v) (List.mem_cons_self (n, v) rest)
    have h2 := ih (fun nv' hnv' => hn nv' (List.mem_cons_of_mem (n, v) hnv'))
    simp [decodeParts, parsePartBytes_field n v h1.1 h1.2, h2]

/-- C1 amended: the conforming reader recovers every field value and the
file bytes (embedded CRLFs included) from the encoder output, provided
the boundary has the generated shape, names and filenames contain no CR
or double-quote byte, and no field value or file byte-sequence contains
the boundary delimiter `CRLF -- boundary` or starts with `-- boundary`. -/
theorem multipart_roundtrip (B : List Byte)
    (fields : List (List Byte × List Byte)) (f : FilePart)
    (hB : validBoundary B)
    (hnames : ∀ nv ∈ fields, CRb ∉ nv.1 ∧ QUOTb ∉ nv.1)
    (hvals : ∀ nv ∈ fields, ¬ (crlf ++ dd ++ B) <:+: nv.2 ∧ ¬ (dd ++ B) <+: nv.2)
    (hfname : CRb ∉ f.fname ∧ QUOTb ∉ f.fname)
    (hffile : CRb ∉ f.filename ∧ QUOTb ∉ f.filename)
    (hdata : ¬ (crlf ++ dd ++ B) <:+: f.fdata ∧ ¬ (dd ++ B) <+: f.fdata) :
    parseMultipart (encode_multipart_formdata B fields [f]).2
        (encode_multipart_formdata B fields [f]).1
      = some (fields.map (fun nv => ⟨nv.1, none, nv.2⟩)
          ++ [⟨f.fname, some f.filename, f.fdata⟩]) := by
  have hBCR : CRb ∉ B := validBoundary_noCR B hB
  have hct : (encode_multipart_formdata B fields [f]).2
      = ascii "multipart/form-data; boundary=" ++ B := rfl
  have hbody := encodeBody_restStream B fields f
  have hdne : (crlf ++ dd ++ B) ≠ [] :=
    List.append_ne_nil_of_left_ne_nil (by decide) B
  have hfpclean : CleanFor (crlf ++ dd ++ B) (filePartBytes f) :=
    cleanFilePart B f hBCR hfname.1 hffile.1 hdata.1 hdata.2
  have hpsclean : ∀ p ∈ fields.map fieldPartBytes, CleanFor (crlf ++ dd ++ B) p := by
    intro p hp
    obtain ⟨nv, hnv, rfl⟩ := List.mem_map.mp hp
    obtain ⟨n, v⟩ := nv
    exact cleanFieldPart B n v hBCR (hnames (n, v) hnv).1
      (hvals (n, v) hnv).1 (hvals (n, v) hnv).2
  have hlen := restStream_length (crlf ++ dd ++ B) (filePartBytes f)
    (fields.map fieldPartBytes) (by simp [crlf])
  have hsplit := splitParts_restStream (crlf ++ dd ++ B) (filePartBytes f)
    (fields.map fieldPartBytes) hdne hfpclean hpsclean
    ((restStream (crlf ++ dd ++ B) (filePartBytes f)
        (fields.map fieldPartBytes)).length + 1)
    (by omega)
  have hdec := decodeParts_encodeParts fields f hnames
    ⟨hfname.1, hfname.2, hffile.1, hffile.2⟩
  simp only [parseMultipart, boundaryOfContentType, hct, hbody,
    dropPre_append, hsplit, hdec]

/-- Witness for the amended C1: one flag field and a file whose bytes
contain an embedded CRLF (`A\r\nB`) round-trip exactly. -/
theorem multipart_roundtrip_witness :
    parseMultipart
        (encode_multipart_formdata sampleBoundary
          [(ascii "enableFinexio", ascii "true")] [sampleFile]).2
        (encode_multipart_formdata sampleBoundary
          [(ascii "enableFinexio", ascii "true")] [sampleFile]).1
      = some [⟨ascii "enableFinexio", none, ascii "true"⟩,
              ⟨ascii "file", some (ascii "test.csv"), [65, 13, 10, 66]⟩] := by
  have h := multipart_roundtrip sampleBoundary
    [(ascii "enableFinexio", ascii "true")] sampleFile
    ⟨ascii "00112233445566778899aabbccddeeff", rfl, by decide, by decide⟩
    (by decide) (by decide) (by decide) (by decide) (by decide)
  simpa [sampleFile] using h

set_option maxRecDepth 10000 in
/-- C1 counterexample: with file bytes that contain the boundary
delimiter `CRLF -- boundary` itself, the conforming reader does not
recover the original file bytes (here it rejects the body outright), so
the unconditional round-trip claim fails. -/
theorem multipart_roundtrip_cex :
    parseMultipart (encode_multipart_formdata sampleBoundary [] [collidingFile]).2
        (encode_multipart_formdata sampleBoundary [] [collidingFile]).1
      ≠ some [⟨collidingFile.fname, some collidingFile.filename,
               collidingFile.fdata⟩] ∧
    parseMultipart (encode_multipart_formdata sampleBoundary [] [collidingFile]).2
        (encode_multipart_formdata sampleBoundary [] [collidingFile]).1
      = none := by
  constructor
  · decide
  · decide

/-- A field chunk is the generic chunk shape at its header and value. -/
theorem fieldChunk_chunk (B n v : List Byte) :
    fieldChunk B n v = chunkBytes B (fieldHeaderBytes n, v) := by
  have hq : ascii "\"" = [QUOTb] := by decide
  simp [fieldChunk, chunkBytes, fieldHeaderBytes, cdName, hq, List.append_assoc]

/-- The file chunk is the generic chunk shape at its header and data. -/
theorem fileChunk_chunk (B : List Byte) (f : FilePart) :
    fileChunk B f = chunkBytes B (fileHeaderBytes f, f.fdata) := by
  have hq : ascii "\"" = [QUOTb] := by decide
  simp [fileChunk, chunkBytes, fileHeaderBytes, cdName, ctLine, hq,
    List.append_assoc]

/-- The whole encoder body is the concatenation of one chunk per part
followed by the closing boundary line. -/
theorem encodeBody_chunks (B : List Byte)
    (fields : List (List Byte × List Byte)) (files : List FilePart) :
    (encode_multipart_formdata B fields files).1
      = ((partChunks fields files).map (chunkBytes B)).flatten
        ++ closingChunk B := by
  have h1 : fields.map (fun nv => fieldChunk B nv.1 nv.2)
      = fields.map (fun nv => chunkBytes B (fieldHeaderBytes nv.1, nv.2)) := by
    induction fields with
    | nil => rfl
    | cons a l ih => simp only [List.map_cons, ih, fieldChunk_chunk]
  have h2 : files.map (fileChunk B)
      = files.map (fun g => chunkBytes B (fileHeaderBytes g, g.fdata)) := by
    induction files with
    | nil => rfl
    | cons a l ih => simp only [List.map_cons, ih, fileChunk_chunk]
  simp only [encode_multipart_formdata, partChunks, h1, h2, List.map_append,
    List.map_map, List.flatten_append, Function.comp_def, List.append_assoc]

/-- C2: for any scalar fields and one file part, the encoded body is
exactly one boundary-delimited chunk per field plus one for the file (in
order), each chunk's header block is terminated by an empty line — the
CRLF CRLF written after it is the first one, since the header block
itself contains no CRLF CRLF — and the body ends with the closing line
`-- boundary --` CRLF. -/
theorem encode_body_structure (B : List Byte)
    (fields : List (List Byte × List Byte)) (f : FilePart)
    (hn : ∀ nv ∈ fields, CRb ∉ nv.1)
    (hf1 : CRb ∉ f.fname) (hf2 : CRb ∉ f.filename) :
    (encode_multipart_formdata B fields [f]).1
      = ((partChunks fields [f]).map (chunkBytes B)).flatten
        ++ closingChunk B ∧
    (partChunks fields [f]).length = fields.length + 1 ∧
    (∀ hc ∈ partChunks fields [f], ¬ (crlf ++ crlf) <:+: hc.1) ∧
    closingChunk B <:+ (encode_multipart_formdata B fields [f]).1 := by
  refine ⟨encodeBody_chunks B fields [f], by simp [partChunks], ?_, ?_⟩
  · intro hc hmem
    rcases List.mem_append.mp hmem with hmem' | hmem'
    · obtain ⟨nv, hnv, rfl⟩ := List.mem_map.mp hmem'
      intro hinf
      obtain ⟨s, t, hst⟩ := hinf
      have hst' : s ++ (crlf ++ crlf) ++ t = fieldHeaderBytes nv.1 := hst
      have hcr : CRb ∈ fieldHeaderBytes nv.1 := by
        rw [← hst']
        refine List.mem_append.mpr (Or.inl ?_)
        refine List.mem_append.mpr (Or.inr ?_)
        decide
      exact noCR_fieldHeader nv.1 (hn nv hnv) hcr
    · obtain ⟨f', hf', rfl⟩ := List.mem_map.mp hmem'
      have hff : f' = f := by simpa using hf'
      subst hff
      intro hinf
      have hinf' : (crlf ++ crlf) <:+: fileHeaderBytes f' := hinf
      have hcount := hinf'.sublist.count_le CRb
      have hcnt1 : List.count CRb (crlf ++ crlf) = 2 := by decide
      have hcnt2 : List.count CRb (fileHeaderBytes f') = 1 := by
        simp only [fileHeaderBytes, List.count_append]
        rw [List.count_eq_zero.mpr hf1, List.count_eq_zero.mpr hf2]
        decide
      rw [hcnt1, hcnt2] at hcount
      omega
  · rw [encodeBody_chunks B fields [f]]
    exact ⟨_, rfl⟩

/-- Witness for C2 at a concrete boundary, one flag field and the sample
file. -/
theorem encode_body_structure_witness :
    (encode_multipart_formdata sampleBoundary
        [(ascii "enableFinexio", ascii "true")] [sampleFile]).1
      = ((partChunks [(ascii "enableFinexio", ascii "true")] [sampleFile]).map
          (chunkBytes sampleBoundary)).flatten ++ closingChunk sampleBoundary ∧
    (partChunks [(ascii "enableFinexio", ascii "true")] [sampleFile]).length
      = 1 + 1 ∧
    (∀ hc ∈ partChunks [(ascii "enableFinexio", ascii "true")] [sampleFile],
      ¬ (crlf ++ crlf) <:+: hc.1) ∧
    closingChunk sampleBoundary <:+
      (encode_multipart_formdata sampleBoundary
        [(ascii "enableFinexio", ascii "true")] [sampleFile]).1 := by
  have h := encode_body_structure sampleBoundary
    [(ascii "enableFinexio", ascii "true")] sampleFile
    (by decide) (by decide) (by decide)
  simpa using h

/-- C3: the boundary token of the returned content type is exactly the
token used in every boundary line of the body: the content type is the
fixed prelude followed by the token, reading it back yields the token,
and the body decomposes into chunks and a closing line all built from
that same token. -/
theorem content_type_boundary_agrees (B : List Byte)
    (fields : List (List Byte × List Byte)) (files : List FilePart) :
    (encode_multipart_formdata B fields files).2
      = ascii "multipart/form-data; boundary=" ++ B ∧
    boundaryOfContentType (encode_multipart_formdata B fields files).2 = some B ∧
    (encode_multipart_formdata B fields files).1
      = ((partChunks fields files).map (chunkBytes B)).flatten
        ++ closingChunk B := by
  refine ⟨rfl, ?_, encodeBody_chunks B fields files⟩
  exact dropPre_append (ascii "multipart/form-data; boundary=") B
